import Mathlib

/-!
Verification of the rustmark CPU-saturation benchmark (src/main.rs).

The development shallowly embeds the parts of the program the claims are
about: the concurrent load-generation engine (worker threads contributing
batches to a shared atomic counter), the control loop's quit handling and
epilogue (joins, then the printed summary), the statistics derivation, the
bounded history buffers of `update_app_state`, the 2-decimal rounding, and
the system-information assembly.
-/

namespace Rustmark

/-- `TARGET_OPERATIONS` from src/main.rs line 23: the fixed work budget. -/
def TARGET_OPERATIONS : ℕ := 100000000000

/-- The batch size: every 1,000,000 local iterations a worker folds
1,000,000 into the shared counter (src/main.rs lines 56-57). -/
def BATCH : ℕ := 1000000

/-! ## The concurrent worker / counter system

Each worker runs `loop { n = n.wrapping_add(1); if n % 1_000_000 == 0 {
fetch_add(1_000_000, Relaxed); if load(Relaxed) >= TARGET_OPERATIONS
{ break } } }`.  We embed this as a labelled transition system.  A worker
is `looping` between batch boundaries; the `fetch_add` moves it to
`added c` where `c` is the counter value immediately after its own add
(atomic read-modify-write); the subsequent `load` observes some value `v`
with `c ≤ v ≤ counter` (coherence: a thread's later relaxed load cannot
read before its own RMW in the modification order, and cannot read a value
newer than the current one) and the worker exits iff `v ≥ TARGET`.
The control thread's only interaction modelled here is setting the quit
flag when 'q' is received (src/main.rs lines 101-107); nothing in the
worker closure ever reads it. -/

/-- Phase of one worker thread relative to its batch boundary. -/
inductive WPhase where
  | looping : WPhase
  | added : ℕ → WPhase
  | done : WPhase
deriving DecidableEq, Repr

/-- Global state: the shared atomic counter, the phase of each worker
(one list entry per spawned thread), and whether 'q' was received. -/
structure SysState where
  counter : ℕ
  workers : List WPhase
  quit : Bool
deriving DecidableEq, Repr

/-- Transition labels: worker `i` performs its batch `fetch_add`; worker
`i` performs the following `load` observing value `v`; the control loop
receives the quit key. -/
inductive Lab where
  | wadd : ℕ → Lab
  | wcheck : ℕ → ℕ → Lab
  | quitEv : Lab
deriving DecidableEq, Repr

/-- Whether a label is an action of a worker thread (as opposed to the
control thread). -/
def workerLab : Lab → Bool
  | .wadd _ => true
  | .wcheck _ _ => true
  | .quitEv => false

/-- One interleaved step of the system. -/
inductive Step : SysState → Lab → SysState → Prop where
  | wadd (s : SysState) (i : ℕ) (h : s.workers[i]? = some .looping) :
      Step s (.wadd i)
        ⟨s.counter + BATCH, s.workers.set i (.added (s.counter + BATCH)), s.quit⟩
  | wcheck (s : SysState) (i c v : ℕ) (h : s.workers[i]? = some (.added c))
      (hcv : c ≤ v) (hvc : v ≤ s.counter) :
      Step s (.wcheck i v)
        ⟨s.counter,
         s.workers.set i (if TARGET_OPERATIONS ≤ v then .done else .looping),
         s.quit⟩
  | quitEv (s : SysState) :
      Step s .quitEv ⟨s.counter, s.workers, true⟩

/-- A finite execution: the state reached from `s` by the listed steps. -/
inductive Exec : SysState → List Lab → SysState → Prop where
  | nil (s : SysState) : Exec s [] s
  | cons {s s' s'' : SysState} {l : Lab} {tr : List Lab} :
      Step s l s' → Exec s' tr s'' → Exec s (l :: tr) s''

/-- Initial state with `C` spawned workers (src/main.rs lines 44-65). -/
def initState (C : ℕ) : SysState :=
  ⟨0, List.replicate C .looping, false⟩

/-- States the running program can be in. -/
def Reachable (C : ℕ) (s : SysState) : Prop :=
  ∃ tr, Exec (initState C) tr s

/-- All worker threads have exited their loops. -/
def allDone (s : SysState) : Prop :=
  ∀ p ∈ s.workers, p = WPhase.done

/-- A worker is *spent* once its loop can never add to the counter again:
it has exited, or its own add already put the counter at or past the
target (its pending re-read must then observe at least that value). -/
def spent : WPhase → Bool
  | .looping => false
  | .added c => decide (TARGET_OPERATIONS ≤ c)
  | .done => true

/-- The inductive invariant of the system:
the counter overshoots the target by less than one batch per spent worker;
every pending post-add observation base is at most the current counter;
and once any worker has exited, the counter has reached the target. -/
def Inv (s : SysState) : Prop :=
  s.counter < TARGET_OPERATIONS + BATCH * s.workers.countP spent
    ∧ (∀ c, WPhase.added c ∈ s.workers → c ≤ s.counter)
    ∧ ((∃ p ∈ s.workers, p = WPhase.done) → TARGET_OPERATIONS ≤ s.counter)

/-- Recognizer for the batch-add action of worker `i` in a trace. -/
def labelIsAdd (i : ℕ) : Lab → Bool
  | .wadd j => decide (j = i)
  | _ => false

/-- Formalization of claim C3 as stated: in any execution that continues
after the quit flag has been set, every worker performs at most one more
batch add (exits within one batch of the quit). -/
def QuitOneBatchClaim (C : ℕ) : Prop :=
  ∀ (s1 s2 : SysState) (tr : List Lab),
    Reachable C s1 → s1.quit = true → Exec s1 tr s2 →
    ∀ i, tr.countP (labelIsAdd i) ≤ 1

/-- The progress fraction shown by the gauge (src/main.rs line 154):
`total_operations as f64 / TARGET_OPERATIONS as f64`, modelled over ℚ. -/
def progressFraction (counter : ℕ) : ℚ :=
  (counter : ℚ) / (TARGET_OPERATIONS : ℚ)

/-- The vector of thread handles built by the spawn loop
(src/main.rs lines 48-65): one handle pushed per iteration of
`for _ in 0..num_cores`. -/
def spawnedHandles (num_cores : ℕ) : List ℕ :=
  List.range num_cores

/-- How many worker threads the program spawns for a detected logical
core count. -/
def spawnedWorkerCount (num_cores : ℕ) : ℕ :=
  (spawnedHandles num_cores).length

/-- Which of the two `break`s left the main loop: the 'q' key
(src/main.rs line 104) or the counter reaching the target (line 117). -/
inductive ExitTrigger where
  | userQuit : ExitTrigger
  | naturalCompletion : ExitTrigger
deriving DecidableEq, Repr

/-- Observable actions performed after the main loop exits. -/
inductive EpilogueAction where
  | joinWorker : ℕ → EpilogueAction
  | printLine : String → EpilogueAction
deriving DecidableEq, Repr

/-- Whether an epilogue action is a thread join. -/
def isJoinAction : EpilogueAction → Bool
  | .joinWorker _ => true
  | .printLine _ => false

/-- The final summary printed to stdout (src/main.rs lines 137-144), one
list entry per `println!`.  Rendered duration / float values are passed
in as already-formatted strings. -/
def summaryLines (timeStr opsPerSecStr scoreStr : String) : List String :=
  [ "Stress test completed"
  , "Total operations: " ++ toString TARGET_OPERATIONS
  , "Total time: " ++ timeStr
  , "Operations per second: " ++ opsPerSecStr
  , "Score: " ++ scoreStr ++ " million ops/sec" ]

/-- Everything the program does after leaving the main loop
(src/main.rs lines 121-146): it joins every spawned worker in spawn
order, then prints the summary.  The code after the loop is the same for
both `break`s, hence independent of the trigger. -/
def mainEpilogue (trigger : ExitTrigger) (C : ℕ)
    (timeStr opsPerSecStr scoreStr : String) : List EpilogueAction :=
  ((spawnedHandles C).map EpilogueAction.joinWorker)
    ++ ((summaryLines timeStr opsPerSecStr scoreStr).map EpilogueAction.printLine)

/-- `operations_per_second` (src/main.rs line 135):
`TARGET_OPERATIONS as f64 / total_time.as_secs_f64()`, modelled over ℚ.
Every quantity in the claimed instance is exactly representable in
binary64 and the divisions are exact, so the rational model coincides
with the floating-point evaluation there. -/
def operations_per_second (total_time : ℚ) : ℚ :=
  (TARGET_OPERATIONS : ℚ) / total_time

/-- The reported score (src/main.rs lines 141-144):
`operations_per_second / 1_000_000.0`. -/
def benchScore (total_time : ℚ) : ℚ :=
  operations_per_second total_time / 1000000

/-- The two time-series buffers of `AppState`
(src/main.rs lines 30-31). -/
structure Histories where
  cpu : List (ℚ × ℚ)
  mem : List (ℚ × ℚ)
deriving DecidableEq, Repr

/-- One tick of history maintenance (src/main.rs lines 387-401): push
`(elapsed, cpu_usage)` and `(elapsed, memory_usage)`, then, if the CPU
buffer now exceeds 240 entries, remove index 0 from both buffers
(`Vec::remove(0)` on a nonempty vector is `tail`). -/
def pushHistories (h : Histories) (elapsed cpuVal memVal : ℚ) : Histories :=
  let cpu2 := h.cpu ++ [(elapsed, cpuVal)]
  let mem2 := h.mem ++ [(elapsed, memVal)]
  if 240 < cpu2.length then ⟨cpu2.tail, mem2.tail⟩ else ⟨cpu2, mem2⟩

/-- The history buffers after `T` control-loop ticks, starting from the
empty buffers of the initial `AppState` (src/main.rs lines 75-76);
`e n`, `f n`, `g n` are the elapsed seconds, rounded CPU sample and
rounded memory sample of tick `n`. -/
def runHistories (e f g : ℕ → ℚ) : ℕ → Histories
  | 0 => ⟨[], []⟩
  | n + 1 => pushHistories (runHistories e f g n) (e n) (f n) (g n)

/-- Rust's `f64::round`: round half away from zero
(src/main.rs lines 388-389 use `.round()`). -/
def rustRound (x : ℚ) : ℤ :=
  if 0 ≤ x then ⌊x + 1 / 2⌋ else ⌈x - 1 / 2⌉

/-- The 2-decimal rounding applied to each raw usage reading before it is
stored in the tick's sample (src/main.rs lines 388-389):
`(x * 100.0).round() / 100.0`. -/
def roundToPercent (x : ℚ) : ℚ :=
  (rustRound (x * 100) : ℚ) / 100

/-- The static metadata the telemetry provider exposes; each string field
is independently optional (sysinfo's `name`, `os_version`,
`kernel_version`, `host_name` all return `Option<String>`). -/
structure SysMeta where
  osName : Option String
  osVersion : Option String
  kernelVersion : Option String
  hostName : Option String
  totalMemory : ℕ
  totalSwap : ℕ

/-- The `system_info` list rebuilt each tick (src/main.rs lines 410-429);
every missing string field collapses to `""` via `unwrap_or_default()`. -/
def buildSystemInfo (m : SysMeta) : List (String × String) :=
  [ ("OS", m.osName.getD "")
  , ("OS Version", m.osVersion.getD "")
  , ("Kernel", m.kernelVersion.getD "")
  , ("Host Name", m.hostName.getD "")
  , ("Total Memory", toString (m.totalMemory / 1024 / 1024) ++ " MB")
  , ("Total Swap", toString (m.totalSwap / 1024 / 1024) ++ " MB") ]

lemma spent_looping : spent WPhase.looping = false := rfl

lemma spent_done : spent WPhase.done = true := rfl

lemma spent_added (c : ℕ) :
    spent (WPhase.added c) = decide (TARGET_OPERATIONS ≤ c) := rfl

lemma step_counter_mono {s s' : SysState} {l : Lab} (h : Step s l s') :
    s.counter ≤ s'.counter := by
  cases h <;> simp

lemma step_workers_length {s s' : SysState} {l : Lab} (h : Step s l s') :
    s'.workers.length = s.workers.length := by
  cases h <;> simp

lemma exec_counter_mono {s s' : SysState} {tr : List Lab}
    (h : Exec s tr s') : s.counter ≤ s'.counter := by
  induction h with
  | nil => exact le_refl _
  | cons hstep _ ih => exact le_trans (step_counter_mono hstep) ih

lemma exec_workers_length {s s' : SysState} {tr : List Lab}
    (h : Exec s tr s') : s'.workers.length = s.workers.length := by
  induction h with
  | nil => rfl
  | cons hstep _ ih => exact ih.trans (step_workers_length hstep)

lemma inv_initState (C : ℕ) : Inv (initState C) := by
  refine ⟨?_, ?_, ?_⟩
  · simp only [initState, TARGET_OPERATIONS, BATCH]
    omega
  · intro c hc
    simp only [initState] at hc
    exact absurd (List.eq_of_mem_replicate hc) (by simp)
  · rintro ⟨p, hp, rfl⟩
    simp only [initState] at hp
    exact absurd (List.eq_of_mem_replicate hp) (by simp)

lemma step_inv {s s' : SysState} {l : Lab} (h : Step s l s') (hI : Inv s) :
    Inv s' := by
  obtain ⟨h1, h2, h3⟩ := hI
  cases h with
  | wadd i hi =>
    obtain ⟨hlen, hget⟩ := List.getElem?_eq_some.mp hi
    have hcnt := List.countP_set spent s.workers i
      (.added (s.counter + BATCH)) hlen
    rw [hget, spent_looping, spent_added] at hcnt
    refine ⟨?_, ?_, ?_⟩
    · dsimp only
      by_cases hc : TARGET_OPERATIONS ≤ s.counter + BATCH
      · rw [decide_eq_true hc] at hcnt
        simp at hcnt
        rw [hcnt]
        simp only [TARGET_OPERATIONS, BATCH] at h1 ⊢
        omega
      · rw [decide_eq_false hc] at hcnt
        simp at hcnt
        rw [hcnt]
        simp only [TARGET_OPERATIONS, BATCH] at h1 hc ⊢
        omega
    · intro c hc
      rcases List.mem_or_eq_of_mem_set hc with hmem | heq
      · exact le_trans (h2 c hmem) (Nat.le_add_right _ _)
      · cases heq
        exact le_refl _
    · rintro ⟨p, hp, rfl⟩
      rcases List.mem_or_eq_of_mem_set hp with hmem | heq
      · exact le_trans (h3 ⟨_, hmem, rfl⟩) (Nat.le_add_right _ _)
      · cases heq
  | wcheck i c v hi hcv hvc =>
    obtain ⟨hlen, hget⟩ := List.getElem?_eq_some.mp hi
    have hcnt := List.countP_set spent s.workers i
      (if TARGET_OPERATIONS ≤ v then WPhase.done else WPhase.looping) hlen
    rw [hget, spent_added] at hcnt
    refine ⟨?_, ?_, ?_⟩
    · dsimp only
      by_cases hv : TARGET_OPERATIONS ≤ v
      · rw [if_pos hv, spent_done] at hcnt
        by_cases hc' : TARGET_OPERATIONS ≤ c
        · rw [decide_eq_true hc'] at hcnt
          simp at hcnt
          rw [if_pos hv, hcnt]
          simp only [TARGET_OPERATIONS, BATCH] at h1 ⊢
          omega
        · rw [decide_eq_false hc'] at hcnt
          simp at hcnt
          rw [if_pos hv, hcnt]
          simp only [TARGET_OPERATIONS, BATCH] at h1 ⊢
          omega
      · have hc' : ¬ TARGET_OPERATIONS ≤ c := fun hcc => hv (le_trans hcc hcv)
        rw [if_neg hv, spent_looping, decide_eq_false hc'] at hcnt
        simp at hcnt
        rw [if_neg hv, hcnt]
        simp only [TARGET_OPERATIONS, BATCH] at h1 ⊢
        omega
    · intro c' hc'
      rcases List.mem_or_eq_of_mem_set hc' with hmem | heq
      · exact h2 c' hmem
      · by_cases hv : TARGET_OPERATIONS ≤ v <;> simp [hv] at heq
    · rintro ⟨p, hp, rfl⟩
      rcases List.mem_or_eq_of_mem_set hp with hmem | heq
      · exact h3 ⟨_, hmem, rfl⟩
      · by_cases hv : TARGET_OPERATIONS ≤ v
        · exact le_trans hv hvc
        · simp [hv] at heq
  | quitEv =>
    exact ⟨h1, h2, h3⟩

lemma exec_inv {s s' : SysState} {tr : List Lab}
    (h : Exec s tr s') (hI : Inv s) : Inv s' := by
  induction h with
  | nil => exact hI
  | cons hstep _ ih => exact ih (step_inv hstep hI)

lemma reachable_inv {C : ℕ} {s : SysState} (h : Reachable C s) : Inv s := by
  obtain ⟨tr, htr⟩ := h
  exact exec_inv htr (inv_initState C)

lemma exec_append {s s' s'' : SysState} {tr tr' : List Lab}
    (h1 : Exec s tr s') (h2 : Exec s' tr' s'') : Exec s (tr ++ tr') s'' := by
  induction h1 with
  | nil => exact h2
  | cons hstep _ ih => exact Exec.cons hstep (ih h2)

/-- One full batch cycle of a single worker that does not yet see the
target: add, then check and keep looping.  The quit flag is arbitrary
because the worker never reads it. -/
lemma batch_cycle (m : ℕ) (q : Bool) (hm : m + BATCH < TARGET_OPERATIONS) :
    Exec ⟨m, [WPhase.looping], q⟩
      [Lab.wadd 0, Lab.wcheck 0 (m + BATCH)]
      ⟨m + BATCH, [WPhase.looping], q⟩ := by
  refine Exec.cons (Step.wadd ⟨m, [WPhase.looping], q⟩ 0 rfl) ?_
  have h := Step.wcheck ⟨m + BATCH, [WPhase.added (m + BATCH)], q⟩ 0
    (m + BATCH) (m + BATCH) rfl le_rfl le_rfl
  rw [if_neg (by omega)] at h
  exact Exec.cons h (Exec.nil _)

/-- The final batch cycle of a single worker: add, see the target
reached, exit. -/
lemma batch_finish (m : ℕ) (q : Bool) (hm : TARGET_OPERATIONS ≤ m + BATCH) :
    Exec ⟨m, [WPhase.looping], q⟩
      [Lab.wadd 0, Lab.wcheck 0 (m + BATCH)]
      ⟨m + BATCH, [WPhase.done], q⟩ := by
  refine Exec.cons (Step.wadd ⟨m, [WPhase.looping], q⟩ 0 rfl) ?_
  have h := Step.wcheck ⟨m + BATCH, [WPhase.added (m + BATCH)], q⟩ 0
    (m + BATCH) (m + BATCH) rfl le_rfl le_rfl
  rw [if_pos hm] at h
  exact Exec.cons h (Exec.nil _)

/-- A single worker can run `k` full batches (for `k * BATCH` still below
the target). -/
lemma reachable_k_batches (k : ℕ) (hk : k ≤ 99999) :
    Reachable 1 ⟨k * BATCH, [WPhase.looping], false⟩ := by
  induction k with
  | zero =>
    refine ⟨[], ?_⟩
    have h0 : initState 1 = ⟨0 * BATCH, [WPhase.looping], false⟩ := by
      simp [initState]
    rw [← h0]
    exact Exec.nil _
  | succ k ih =>
    obtain ⟨tr, htr⟩ := ih (by omega)
    refine ⟨tr ++ [Lab.wadd 0, Lab.wcheck 0 ((k + 1) * BATCH)], ?_⟩
    have hcycle := batch_cycle (k * BATCH) false (by
      simp only [TARGET_OPERATIONS, BATCH]
      have : k + 1 ≤ 99999 := by omega
      nlinarith)
    have hmul : k * BATCH + BATCH = (k + 1) * BATCH := by ring
    rw [hmul] at hcycle
    exact exec_append htr hcycle

/-- A complete single-worker run: the terminal all-done state with the
counter exactly at the target is reachable. -/
lemma reachable_terminal_one :
    Reachable 1 ⟨TARGET_OPERATIONS, [WPhase.done], false⟩ := by
  obtain ⟨tr, htr⟩ := reachable_k_batches 99999 le_rfl
  refine ⟨tr ++ [Lab.wadd 0, Lab.wcheck 0 (99999 * BATCH + BATCH)], ?_⟩
  have hfin := batch_finish (99999 * BATCH) false (by
    simp only [TARGET_OPERATIONS, BATCH]
    norm_num)
  have heq : 99999 * BATCH + BATCH = TARGET_OPERATIONS := by
    norm_num [TARGET_OPERATIONS, BATCH]
  rw [heq] at hfin
  exact exec_append htr hfin

/-- C1: for every number of workers `C ≥ 1`, when the benchmark run has
terminated (every worker has exited its loop), the shared counter is at
least `TARGET_OPERATIONS` and overshoots it by less than `C * BATCH`,
where each worker adds `BATCH = 1_000_000` and only then re-reads the
counter to decide whether to exit. -/
theorem C1_bounded_overshoot (C : ℕ) (s : SysState)
    (hC : 1 ≤ C) (hreach : Reachable C s) (hdone : allDone s) :
    TARGET_OPERATIONS ≤ s.counter ∧
      s.counter - TARGET_OPERATIONS < C * BATCH := by
  obtain ⟨h1, _h2, h3⟩ := reachable_inv hreach
  have hlen : s.workers.length = C := by
    obtain ⟨tr, htr⟩ := hreach
    simpa [initState] using exec_workers_length htr
  have hne : s.workers ≠ [] := by
    intro hnil
    rw [hnil] at hlen
    simp at hlen
    omega
  obtain ⟨p, hp⟩ := List.exists_mem_of_ne_nil s.workers hne
  have hlow := h3 ⟨p, hp, hdone p hp⟩
  have hcnt : s.workers.countP spent ≤ C := by
    have := List.countP_le_length (p := spent) (l := s.workers)
    omega
  refine ⟨hlow, ?_⟩
  simp only [TARGET_OPERATIONS, BATCH] at h1 hlow ⊢
  omega

/-- Concrete instance of C1: the single-worker run that terminates with
the counter exactly at the target satisfies both bounds. -/
theorem C1_bounded_overshoot_witness :
    (1 ≤ 1 ∧ allDone ⟨TARGET_OPERATIONS, [WPhase.done], false⟩) ∧
      (TARGET_OPERATIONS ≤
          (⟨TARGET_OPERATIONS, [WPhase.done], false⟩ : SysState).counter ∧
        (⟨TARGET_OPERATIONS, [WPhase.done], false⟩ : SysState).counter -
            TARGET_OPERATIONS < 1 * BATCH) :=
  ⟨⟨le_rfl, by intro p hp; simpa using hp⟩,
    C1_bounded_overshoot 1 ⟨TARGET_OPERATIONS, [WPhase.done], false⟩ le_rfl
      reachable_terminal_one (by intro p hp; simpa using hp)⟩

/-- C2 counterexample: the spawn loop `for _ in 0..num_cores` has no
`max(1, ·)` clamp, so a platform report of 0 logical cores yields 0
spawned workers, not `max 1 0 = 1`. -/
theorem C2_no_clamp_counterexample : spawnedWorkerCount 0 ≠ max 1 0 := by
  decide

/-- C2 amended: the program spawns exactly `detected_logical_cores`
worker threads; whenever the platform reports at least one core (which
the `num_cpus` library guarantees), this equals
`max(1, detected_logical_cores)`. -/
theorem C2_spawn_count (n : ℕ) :
    spawnedWorkerCount n = n ∧ (1 ≤ n → spawnedWorkerCount n = max 1 n) := by
  constructor
  · simp [spawnedWorkerCount, spawnedHandles]
  · intro hn
    simp [spawnedWorkerCount, spawnedHandles]
    omega

/-- Concrete instance of the amended C2 at 8 detected cores. -/
theorem C2_spawn_count_witness :
    1 ≤ 8 ∧ spawnedWorkerCount 8 = max 1 8 :=
  ⟨by decide, (C2_spawn_count 8).2 (by decide)⟩

/-- C3 counterexample: the claim that after a quit every worker exits
within one more batch is false.  From the reachable quit state a single
worker performs two batch adds in one continuation (its first re-read
sees `1_000_000 < TARGET_OPERATIONS` and it keeps looping): nothing in
the worker loop observes the quit flag. -/
theorem C3_one_batch_after_quit_counterexample : ¬ QuitOneBatchClaim 1 := by
  intro h
  have hreach : Reachable 1 ⟨0, [WPhase.looping], true⟩ :=
    ⟨[Lab.quitEv], Exec.cons (Step.quitEv (initState 1)) (Exec.nil _)⟩
  have hcyc : Exec ⟨0, [WPhase.looping], true⟩
      [Lab.wadd 0, Lab.wcheck 0 (0 + BATCH)]
      ⟨0 + BATCH, [WPhase.looping], true⟩ :=
    batch_cycle 0 true (by norm_num [TARGET_OPERATIONS, BATCH])
  have hstep : Exec ⟨0 + BATCH, [WPhase.looping], true⟩ [Lab.wadd 0]
      ⟨0 + BATCH + BATCH, [WPhase.added (0 + BATCH + BATCH)], true⟩ :=
    Exec.cons (Step.wadd ⟨0 + BATCH, [WPhase.looping], true⟩ 0 rfl) (Exec.nil _)
  have htr := exec_append hcyc hstep
  have hcount := h _ _ _ hreach rfl htr 0
  simp [labelIsAdd] at hcount

/-- C3 amended: a quit command does not signal the workers at all.
Worker transitions neither read nor write the quit flag (they are enabled
with identical effect for either flag value), and a worker exits its loop
only at a batch boundary whose re-read value has reached
`TARGET_OPERATIONS` — so the delay after a quit is bounded by the
remaining work budget, not by one batch. -/
theorem C3_quit_not_observed_by_workers :
    (∀ (s s' : SysState) (l : Lab), workerLab l = true → Step s l s' →
        s'.quit = s.quit) ∧
    (∀ (c : ℕ) (ws : List WPhase) (q q' : Bool) (l : Lab) (c' : ℕ)
        (ws' : List WPhase),
        workerLab l = true → Step ⟨c, ws, q⟩ l ⟨c', ws', q⟩ →
        Step ⟨c, ws, q'⟩ l ⟨c', ws', q'⟩) ∧
    (∀ (s s' : SysState) (i v : ℕ), Step s (.wcheck i v) s' →
        s'.workers[i]? = some WPhase.done → TARGET_OPERATIONS ≤ v) := by
  refine ⟨?_, ?_, ?_⟩
  · intro s s' l hl hstep
    cases hstep with
    | wadd i hi => rfl
    | wcheck i c v hi hcv hvc => rfl
    | quitEv => simp [workerLab] at hl
  · intro c ws q q' l c' ws' hl hstep
    cases hstep with
    | wadd i hi => exact Step.wadd ⟨c, ws, q'⟩ i hi
    | wcheck i cc v hi hcv hvc => exact Step.wcheck ⟨c, ws, q'⟩ i cc v hi hcv hvc
    | quitEv => simp [workerLab] at hl
  · intro s s' i v hstep hdone
    cases hstep with
    | wcheck i c v hi hcv hvc =>
      obtain ⟨hlen, _⟩ := List.getElem?_eq_some.mp hi
      by_contra hv
      rw [List.getElem?_set_self (by simpa using hlen)] at hdone
      rw [if_neg hv] at hdone
      simp at hdone

/-- Concrete instance of the amended C3: a worker batch add behaves
identically with the quit flag set and clear, leaving the flag untouched. -/
theorem C3_quit_not_observed_by_workers_witness :
    workerLab (Lab.wadd 0) = true ∧
      Step ⟨0, [WPhase.looping], false⟩ (Lab.wadd 0)
        ⟨BATCH, [WPhase.added BATCH], false⟩ :=
  ⟨rfl,
    C3_quit_not_observed_by_workers.2.1 0 [WPhase.looping] true false
      (Lab.wadd 0) BATCH [WPhase.added BATCH] rfl
      (Step.wadd ⟨0, [WPhase.looping], true⟩ 0 rfl)⟩

lemma mainEpilogue_join_index {t : ExitTrigger} {C k x : ℕ} {a b c : String}
    (h : (mainEpilogue t C a b c)[k]? = some (.joinWorker x)) : k < C := by
  by_contra hk
  push_neg at hk
  rw [mainEpilogue, List.getElem?_append_right (by simpa [spawnedHandles])] at h
  rw [List.getElem?_map] at h
  cases hsum : (summaryLines a b c)[k - ((spawnedHandles C).map EpilogueAction.joinWorker).length]? with
  | none => rw [hsum] at h; simp at h
  | some line => rw [hsum] at h; simp at h

lemma mainEpilogue_print_index {t : ExitTrigger} {C k : ℕ} {a b c ln : String}
    (h : (mainEpilogue t C a b c)[k]? = some (.printLine ln)) : C ≤ k := by
  by_contra hk
  push_neg at hk
  rw [mainEpilogue, List.getElem?_append_left (by simpa [spawnedHandles])] at h
  rw [List.getElem?_map] at h
  cases hget : (spawnedHandles C)[k]? with
  | none => rw [hget] at h; simp at h
  | some j => rw [hget] at h; simp at h

/-- C4 counterexample: the claim's fixed shape of "exactly 4 lines" is
false — the epilogue prints five `println!` lines (completion notice,
total operations, total time, throughput, score). -/
theorem C4_four_lines_counterexample :
    (summaryLines "100.00s" "1000000000.00" "1000.00").length ≠ 4 := by
  decide

/-- C4 amended: on every exit path (user quit or natural completion) the
program joins all `C` workers strictly before emitting the summary, the
epilogue is literally identical for the two exit triggers, and the
summary consists of exactly 5 lines of fixed shape. -/
theorem C4_epilogue_shape (t t' : ExitTrigger) (C : ℕ)
    (a b c : String) :
    mainEpilogue t C a b c = mainEpilogue t' C a b c ∧
      (summaryLines a b c).length = 5 ∧
      ((mainEpilogue t C a b c).countP isJoinAction) = C ∧
      (∀ (i j x : ℕ) (ln : String),
        (mainEpilogue t C a b c)[i]? = some (.joinWorker x) →
        (mainEpilogue t C a b c)[j]? = some (.printLine ln) → i < j) := by
  refine ⟨rfl, rfl, ?_, ?_⟩
  · have hall : ∀ m ∈ List.range C,
        (isJoinAction ∘ EpilogueAction.joinWorker) m = true := fun m _ => rfl
    simp [mainEpilogue, List.countP_append, List.countP_map, spawnedHandles,
      summaryLines, isJoinAction, List.countP_eq_length.mpr hall]
  · intro i j x ln hi hj
    exact lt_of_lt_of_le (mainEpilogue_join_index hi) (mainEpilogue_print_index hj)

/-- Concrete instance of the amended C4 at 2 workers: a join at index 1
precedes the print at index 2. -/
theorem C4_epilogue_shape_witness :
    (mainEpilogue ExitTrigger.userQuit 2 "t" "o" "s")[1]? =
        some (EpilogueAction.joinWorker 1) ∧
      (mainEpilogue ExitTrigger.userQuit 2 "t" "o" "s")[2]? =
        some (EpilogueAction.printLine "Stress test completed") ∧
      1 < 2 :=
  ⟨by decide, by decide,
    (C4_epilogue_shape ExitTrigger.userQuit ExitTrigger.naturalCompletion 2
          "t" "o" "s").2.2.2 1 2 1 "Stress test completed"
      (by decide) (by decide)⟩

/-- C5: throughput is `TARGET_OPERATIONS / elapsed` (fixed target as
numerator, independent of the possibly-overshot counter by construction)
and score is `throughput / 1_000_000`; at `elapsed = 100` seconds this is
exactly 1_000_000_000 ops/sec and a score of 1000. -/
theorem C5_throughput_and_score :
    operations_per_second 100 = 1000000000 ∧ benchScore 100 = 1000 := by
  constructor
  · norm_num [operations_per_second, TARGET_OPERATIONS]
  · norm_num [benchScore, operations_per_second, TARGET_OPERATIONS]

/-- C7: along any execution the shared counter never decreases (its only
mutations add the positive batch amount), and therefore the progress
fraction `counter / TARGET_OPERATIONS` recorded on successive ticks is
monotonically non-decreasing. -/
theorem C7_counter_and_progress_monotone {s s' : SysState} {tr : List Lab}
    (h : Exec s tr s') :
    s.counter ≤ s'.counter ∧
      progressFraction s.counter ≤ progressFraction s'.counter := by
  have hm := exec_counter_mono h
  refine ⟨hm, ?_⟩
  unfold progressFraction
  have hT : (0 : ℚ) < (TARGET_OPERATIONS : ℚ) := by
    norm_num [TARGET_OPERATIONS]
  exact (div_le_div_iff_of_pos_right hT).mpr (by exact_mod_cast hm)

/-- Concrete instance of C7: one batch add from the initial single-worker
state raises the counter, and the progress fraction does not decrease. -/
theorem C7_counter_and_progress_monotone_witness :
    (initState 1).counter ≤
        (⟨BATCH, [WPhase.added BATCH], false⟩ : SysState).counter ∧
      progressFraction (initState 1).counter ≤
        progressFraction (⟨BATCH, [WPhase.added BATCH], false⟩ : SysState).counter :=
  C7_counter_and_progress_monotone
    (Exec.cons (Step.wadd (initState 1) 0 rfl) (Exec.nil _))

/-- C8: a raw usage reading of 57.345 is stored rounded to two decimal
places as 57.35 (`(x * 100.0).round() / 100.0` with round-half-away-from-
zero; at this input the exact rational evaluation agrees with the
program's binary32/binary64 evaluation). -/
theorem C8_two_decimal_rounding :
    roundToPercent (57345 / 1000) = 5735 / 100 := by
  norm_num [roundToPercent, rustRound]

/-- C9: every telemetry metadata string field that the provider reports
as missing collapses to the empty string in its `system_info` entry (the
query is a total function of the snapshot, so a missing field never fails
the tick), each field independently of the others. -/
theorem C9_missing_fields_default_empty (m : SysMeta) :
    (m.osName = none → (buildSystemInfo m)[0]? = some ("OS", "")) ∧
      (m.osVersion = none →
        (buildSystemInfo m)[1]? = some ("OS Version", "")) ∧
      (m.kernelVersion = none →
        (buildSystemInfo m)[2]? = some ("Kernel", "")) ∧
      (m.hostName = none →
        (buildSystemInfo m)[3]? = some ("Host Name", "")) ∧
      (buildSystemInfo m).length = 6 := by
  refine ⟨?_, ?_, ?_, ?_, rfl⟩ <;> intro h <;> simp [buildSystemInfo, h]

/-- Concrete instance of C9: a snapshot with every string field missing
yields empty strings in all four entries. -/
theorem C9_missing_fields_default_empty_witness :
    (SysMeta.mk none none none none 0 0).osName = none ∧
      (buildSystemInfo (SysMeta.mk none none none none 0 0))[0]? =
        some ("OS", "") ∧
      (buildSystemInfo (SysMeta.mk none none none none 0 0))[3]? =
        some ("Host Name", "") :=
  ⟨rfl,
    (C9_missing_fields_default_empty (SysMeta.mk none none none none 0 0)).1 rfl,
    (C9_missing_fields_default_empty (SysMeta.mk none none none none 0 0)).2.2.2.1 rfl⟩

lemma tail_append_singleton {α : Type} (l : List α) (x : α) (h : l ≠ []) :
    (l ++ [x]).tail = l.tail ++ [x] := by
  cases l with
  | nil => exact absurd rfl h
  | cons a t => simp

lemma runHistories_lengths (e f g : ℕ → ℚ) (T : ℕ) :
    (runHistories e f g T).cpu.length = min T 240 ∧
      (runHistories e f g T).mem.length = min T 240 := by
  induction T with
  | zero => simp [runHistories]
  | succ T ih =>
    obtain ⟨h1, h2⟩ := ih
    constructor <;>
    · simp only [runHistories, pushHistories]
      split <;> simp_all <;> omega

lemma runHistories_evict (e f g : ℕ → ℚ) (T : ℕ) (hT : 240 ≤ T) :
    (runHistories e f g (T + 1)).cpu =
        (runHistories e f g T).cpu.tail ++ [(e T, f T)] ∧
      (runHistories e f g (T + 1)).mem =
        (runHistories e f g T).mem.tail ++ [(e T, g T)] := by
  obtain ⟨h1, h2⟩ := runHistories_lengths e f g T
  have hc : (runHistories e f g T).cpu.length = 240 := by omega
  have hm : (runHistories e f g T).mem.length = 240 := by omega
  have hcne : (runHistories e f g T).cpu ≠ [] := by
    intro hnil
    rw [hnil] at hc
    simp at hc
  have hmne : (runHistories e f g T).mem ≠ [] := by
    intro hnil
    rw [hnil] at hm
    simp at hm
  simp only [runHistories, pushHistories]
  rw [if_pos (by simp [hc])]
  exact ⟨tail_append_singleton _ _ hcne, tail_append_singleton _ _ hmne⟩

/-- C6: after `T` control-loop ticks each history buffer holds exactly
`min T 240` samples (in particular never more than 240), and once
`T ≥ 240` every further append evicts exactly the oldest retained sample
while preserving the order of the rest (FIFO sliding window). -/
theorem C6_history_sliding_window (e f g : ℕ → ℚ) (T : ℕ) :
    (runHistories e f g T).cpu.length = min T 240 ∧
      (runHistories e f g T).mem.length = min T 240 ∧
      (240 ≤ T →
        (runHistories e f g (T + 1)).cpu =
            (runHistories e f g T).cpu.tail ++ [(e T, f T)] ∧
          (runHistories e f g (T + 1)).mem =
            (runHistories e f g T).mem.tail ++ [(e T, g T)]) :=
  ⟨(runHistories_lengths e f g T).1, (runHistories_lengths e f g T).2,
    fun hT => runHistories_evict e f g T hT⟩

/-- Concrete instance of C6 at the first tick past capacity. -/
theorem C6_history_sliding_window_witness :
    240 ≤ 240 ∧
      (runHistories (fun _ => 0) (fun _ => 0) (fun _ => 0) 241).cpu =
          (runHistories (fun _ => 0) (fun _ => 0) (fun _ => 0) 240).cpu.tail
            ++ [(0, 0)] :=
  ⟨le_rfl,
    ((C6_history_sliding_window (fun _ => 0) (fun _ => 0) (fun _ => 0)
        240).2.2 le_rfl).1⟩

/-- C10 (implicit): the CPU and memory history buffers stay in lockstep.
Each tick pushes one sample to both, the eviction is triggered by the CPU
buffer's length and removes the oldest element of both, so after every
`update_app_state` the two buffers have exactly equal length. -/
theorem C10_buffers_lockstep :
    (∀ (h : Histories) (x y z : ℚ), h.cpu.length = h.mem.length →
        (pushHistories h x y z).cpu.length =
            (pushHistories h x y z).mem.length ∧
          (h.cpu.length = 240 →
            pushHistories h x y z =
              ⟨h.cpu.tail ++ [(x, y)], h.mem.tail ++ [(x, z)]⟩)) ∧
      (∀ (e f g : ℕ → ℚ) (T : ℕ),
        (runHistories e f g T).cpu.length =
          (runHistories e f g T).mem.length) := by
  constructor
  · intro h x y z hlen
    constructor
    · simp only [pushHistories]
      split <;> simp [hlen]
    · intro h240
      have hcne : h.cpu ≠ [] := by
        intro hnil
        rw [hnil] at h240
        simp at h240
      have hmne : h.mem ≠ [] := by
        intro hnil
        rw [hnil, List.length_nil] at hlen
        omega
      simp only [pushHistories]
      rw [if_pos (by simp [h240])]
      rw [tail_append_singleton _ _ hcne, tail_append_singleton _ _ hmne]
  · intro e f g T
    obtain ⟨h1, h2⟩ := runHistories_lengths e f g T
    omega

/-- Concrete instance of C10 at a full (length-240) pair of buffers: the
push evicts the oldest element of both and the lengths stay equal. -/
theorem C10_buffers_lockstep_witness :
    (Histories.mk (List.replicate 240 ((0 : ℚ), (0 : ℚ)))
          (List.replicate 240 ((0 : ℚ), (0 : ℚ)))).cpu.length =
        (Histories.mk (List.replicate 240 ((0 : ℚ), (0 : ℚ)))
          (List.replicate 240 ((0 : ℚ), (0 : ℚ)))).mem.length ∧
      pushHistories
          (Histories.mk (List.replicate 240 ((0 : ℚ), (0 : ℚ)))
            (List.replicate 240 ((0 : ℚ), (0 : ℚ)))) 1 2 3 =
        Histories.mk
          ((List.replicate 240 ((0 : ℚ), (0 : ℚ))).tail ++ [(1, 2)])
          ((List.replicate 240 ((0 : ℚ), (0 : ℚ))).tail ++ [(1, 3)]) :=
  ⟨rfl,
    ((C10_buffers_lockstep.1
          (Histories.mk (List.replicate 240 ((0 : ℚ), (0 : ℚ)))
            (List.replicate 240 ((0 : ℚ), (0 : ℚ)))) 1 2 3 rfl).2
      (by rw [List.length_replicate]))⟩

end Rustmark
